import Mathlib

/-!
# Verification of the linkchecker core

Shallow embedding of the linkchecker repository's core components:

* `models`     — the data model (`Link`, `Links`, `LinksResponse`);
* `inmemory`   — the group-numbered in-memory store (`Storage`, `InsertMany`,
  `GetByNums`, `GetAll`), where the Go `map[int][]models.Link` is embedded as
  an association list with overwrite-on-assign semantics (`assocAssign`), so
  `len(s.links)` becomes the length of the list;
* `link`       — the dispatcher service (`New`, `deduplicateLinks`,
  `buildResponse`, `collectResults`, `CheckMany`).  The concurrent fan-in
  loop of `collectResults` resolves one `select` per iteration; we embed the
  sequence of resolved `select` outcomes as an explicit event trace
  (`Ev.recv`, `Ev.closed`, `Ev.cancel`), which abstracts the scheduler;
* `urlchecker` — the probe (`CheckURLWithContext`, `normalizeURL`), with the
  external effects (URL parsing, request construction, the network call and
  the clock) supplied by an oracle record.

Durations and timestamps are carried opaquely as integers (nanoseconds /
clock readings); the core never computes with them.
-/

namespace models

/-- `models.LinkStatus`: availability status of a checked link. -/
inductive LinkStatus where
  | available
  | notAvailable
deriving DecidableEq, Repr

/-- `models.Link`: one checked link record. `Duration` and `CheckedAt` are
opaque integer readings of the host clock. -/
structure Link where
  url : String
  status : LinkStatus
  duration : Int
  checkedAt : Int
deriving DecidableEq, Repr

/-- `models.Links`: a slice of links together with its assigned group number. -/
structure Links where
  links : List Link
  linksNum : Int
deriving DecidableEq, Repr

/-- `models.LinksResponse`: the summary returned by `CheckMany`.  The Go
`map[string]LinkStatus` is embedded as an association list with
overwrite-on-assign semantics. -/
structure LinksResponse where
  links : List (String × LinkStatus)
  linksNum : Int
deriving DecidableEq, Repr

end models

open models

/-- Go map assignment `m[k] = v` on an association-list embedding: overwrite
the binding of `k` if present, otherwise append a new binding at the end. -/
def assocAssign {K V : Type} [DecidableEq K] : List (K × V) → K → V → List (K × V)
  | [], k, v => [(k, v)]
  | (k', v') :: rest, k, v =>
    if k' = k then (k, v) :: rest else (k', v') :: assocAssign rest k v

/-- Go map read `m[k]`: the value bound to the first occurrence of `k`. -/
def assocFind {K V : Type} [DecidableEq K] : List (K × V) → K → Option V
  | [], _ => none
  | (k', v') :: rest, k => if k' = k then some v' else assocFind rest k

namespace inmemory

/-- `inmemory.Storage`: the Go `map[int][]models.Link` behind a `RWMutex`,
embedded as an association list from group numbers to link slices. -/
structure Storage where
  links : List (Int × List Link)
deriving DecidableEq, Repr

/-- `inmemory.New`: a fresh store with an empty map. -/
def New : Storage := ⟨[]⟩

/-- The keys of the store's map, in insertion order. -/
def Storage.keys (s : Storage) : List Int := s.links.map Prod.fst

/-- `len(s.links)`: the size of the store's map. -/
def Storage.count (s : Storage) : Nat := s.links.length

/-- Reading the store's map at a group number. -/
def Storage.find (s : Storage) (num : Int) : Option (List Link) :=
  assocFind s.links num

/-- Result of `inmemory.Storage.InsertMany`: the assigned group number, the
returned error and the updated store. -/
structure InsertResult where
  num : Int
  err : Option String
  store : Storage
deriving DecidableEq, Repr

/-- `inmemory.Storage.InsertMany`: under the exclusive lock, assign
`num := len(s.links) + 1`, store the slice at that key and return
`(num, nil)`. -/
def Storage.InsertMany (s : Storage) (links : List Link) : InsertResult :=
  let num : Int := (s.links.length : Int) + 1
  { num := num, err := none, store := ⟨assocAssign s.links num links⟩ }

/-- The loop of `inmemory.Storage.GetByNums`: walk the requested numbers,
appending the found group to `res`; on the first missing number return
`(nil, errors.New "invalid link number")`. -/
def getByNumsLoop (s : Storage) : List Int → List Links → Except String (List Links)
  | [], res => .ok res
  | num :: rest, res =>
    match s.find num with
    | none => .error "invalid link number"
    | some links => getByNumsLoop s rest (res ++ [⟨links, num⟩])

/-- `inmemory.Storage.GetByNums`: all-or-nothing read of the requested group
numbers, in the order requested. -/
def Storage.GetByNums (s : Storage) (linksNum : List Int) : Except String (List Links) :=
  getByNumsLoop s linksNum []

/-- `inmemory.Storage.GetAll`: every stored group; the Go map iteration order
is unspecified, the embedding enumerates in association-list order. -/
def Storage.GetAll (s : Storage) : List Links :=
  s.links.map fun kv => ⟨kv.2, kv.1⟩

/-- Modelled from the spec: `SaveToFile` is part of this repository but its
implementation is not under `src/` (only its callers in `cmd/main.go` and the
app wiring are).  Per §4.2/§6 of the spec it serializes all groups — a
snapshot is the sequence of `{links_num, links}` records — to a temporary
file and atomically renames it over the target; the embedding keeps the
serialized record sequence and drops the file-system effect. -/
def Storage.SaveToFile (s : Storage) : List Links := s.GetAll

/-- Modelled from the spec: `LoadFromFile` is part of this repository but its
implementation is not under `src/` (only its callers are).  Per §4.2 of the
spec it replaces the entire in-memory state with the contents of the
snapshot; the embedding rebuilds the map from the record sequence. -/
def LoadFromFile (snapshot : List Links) : Storage :=
  ⟨snapshot.map fun g => (g.linksNum, g.links)⟩

/-- A sequence of `InsertMany` calls, returning the assigned group numbers in
call order together with the final store. -/
def runInserts (s : Storage) : List (List Link) → List Int × Storage
  | [] => ([], s)
  | batch :: rest =>
    let r := s.InsertMany batch
    let tail := runInserts r.store rest
    (r.num :: tail.1, tail.2)

end inmemory

namespace link

/-- `link.Service`: the dispatcher's per-service configuration.  The store is
passed explicitly to `CheckMany` in the embedding; the probe and the PDF
generator are external collaborators. -/
structure Service where
  workerCount : Int
deriving DecidableEq, Repr

/-- The default pool size `defaultWorkerCount = 4`. -/
def defaultWorkerCount : Int := 4

/-- `link.New`: non-positive `workerCount` falls back to the default. -/
def New (workerCount : Int) : Service :=
  if workerCount ≤ 0 then ⟨defaultWorkerCount⟩ else ⟨workerCount⟩

/-- The loop of `link.deduplicateLinks`, carrying the `seen` set. -/
def dedupLoop : List String → List String → List String
  | [], _ => []
  | raw :: rest, seen =>
    if raw ∈ seen then dedupLoop rest seen
    else raw :: dedupLoop rest (raw :: seen)

/-- `link.deduplicateLinks`: keep the first occurrence of each string, keyed
by exact string equality (a Go `map[string]struct\x7b\x7d` of seen strings). -/
def deduplicateLinks (links : List String) : List String :=
  dedupLoop links []

/-- `link.buildResponse`: the summary map from URL to status, plus the
assigned group number. -/
def buildResponse (checkedLinks : List Link) (linksNum : Int) : LinksResponse :=
  { links := checkedLinks.foldl (fun m l => assocAssign m l.url l.status) []
    linksNum := linksNum }

/-- One resolved `select` of the collector loop in `link.collectResults`:
either the context's `Done` channel fires with error `e`, or a worker's
result is received, or the results channel is observed closed. -/
inductive Ev where
  | cancel (e : String)
  | recv (l : Link)
  | closed
deriving DecidableEq, Repr

/-- `link.collectResults`: drain the results channel, accumulating links,
until the channel closes (return the accumulated list) or the context is
done (return `ctx.Err()`).  The argument is the trace of resolved `select`
outcomes; `none` means the trace ended with the collector still blocked. -/
def collectResults : List Ev → List Link → Option (Except String (List Link))
  | [], _ => none
  | Ev.cancel e :: _, _ => some (.error e)
  | Ev.closed :: _, acc => some (.ok acc)
  | Ev.recv l :: rest, acc => collectResults rest (acc ++ [l])

/-- Outcome of one `link.CheckMany` call: the returned value or error, the
store after the call, and the number of workers launched (`wg.Add` count). -/
structure Outcome where
  result : Except String LinksResponse
  store : inmemory.Storage
  workers : Int
deriving Repr

/-- The pool-sizing step of `link.CheckMany`: `workerCount := s.workerCount;
if workerCount > linksLen, workerCount = linksLen`. -/
def poolSize (svc : Service) (linksLen : Nat) : Int :=
  if svc.workerCount > (linksLen : Int) then (linksLen : Int) else svc.workerCount

/-- `link.CheckMany`: deduplicate; on an empty unique set return the empty
summary at once (no insertion, no workers); otherwise launch
`poolSize` workers, collect results along the given trace, and on success
insert the checked batch and build the summary.  `none` means the given
trace does not resolve the collector. -/
def CheckMany (svc : Service) (s : inmemory.Storage) (links : List String)
    (trace : List Ev) : Option Outcome :=
  let unique := deduplicateLinks links
  let linksLen := unique.length
  if linksLen = 0 then
    some { result := .ok ⟨[], 0⟩, store := s, workers := 0 }
  else
    let workerCount := poolSize svc linksLen
    match collectResults trace [] with
    | none => none
    | some (.error e) =>
      some { result := .error e, store := s, workers := workerCount }
    | some (.ok checkedLinks) =>
      let r := s.InsertMany checkedLinks
      match r.err with
      | some e => some { result := .error e, store := s, workers := workerCount }
      | none =>
        some { result := .ok (buildResponse checkedLinks r.num)
               store := r.store
               workers := workerCount }

end link

namespace urlchecker

/-- The result of Go's `url.Parse` that `normalizeURL` inspects: the parsed
host and the re-rendered URL string `u.String()`. -/
structure ParsedURL where
  host : String
  rendered : String
deriving DecidableEq, Repr

/-- The external effects of one probe call, supplied as an oracle: the
outcome of `url.Parse`, of `http.NewRequestWithContext`, of `client.Do`
(returning the response status code on success), and the readings of
`time.Since(start)` taken on the failure paths and on the success path. -/
structure HttpOracle where
  parse : String → Except String ParsedURL
  newRequest : String → Except String Unit
  doRequest : String → Except String Int
  elapsedFail : Int
  elapsedOk : Int

/-- The scheme-defaulting step of `urlchecker.normalizeURL`: URLs without an
`http://` or `https://` scheme get `https://` prepended. -/
def addScheme (rawURL : String) : String :=
  if rawURL.startsWith "http://" || rawURL.startsWith "https://" then rawURL
  else "https://" ++ rawURL

/-- `urlchecker.normalizeURL`: default the scheme, parse, and reject a URL
whose parsed host is empty. -/
def normalizeURL (parse : String → Except String ParsedURL) (rawURL : String) :
    Except String String :=
  let withScheme := addScheme rawURL
  match parse withScheme with
  | .error e => .error ("invalid URL: " ++ e)
  | .ok u => if u.host = "" then .error "missing host in URL" else .ok u.rendered

/-- `urlchecker.Checker.CheckURLWithContext`: total — every failure path
(normalization, request construction, network) returns a `NotAvailable`
record carrying the raw input URL and the start-of-call timestamp; on a
response, availability is `statusCode < 400`. -/
def CheckURLWithContext (o : HttpOracle) (start : Int) (rawURL : String) : Link :=
  match normalizeURL o.parse rawURL with
  | .error _ => ⟨rawURL, .notAvailable, o.elapsedFail, start⟩
  | .ok normalizedURL =>
    match o.newRequest normalizedURL with
    | .error _ => ⟨rawURL, .notAvailable, o.elapsedFail, start⟩
    | .ok _ =>
      match o.doRequest normalizedURL with
      | .error _ => ⟨rawURL, .notAvailable, o.elapsedFail, start⟩
      | .ok statusCode =>
        ⟨rawURL, if statusCode < 400 then .available else .notAvailable,
         o.elapsedOk, start⟩

/-- `true` iff some stage of the probe call fails: normalization, request
construction at the normalized URL, or the network request at the
normalized URL. -/
def probeStageFails (o : HttpOracle) (rawURL : String) : Bool :=
  match normalizeURL o.parse rawURL with
  | .error _ => true
  | .ok normalizedURL =>
    match o.newRequest normalizedURL with
    | .error _ => true
    | .ok _ =>
      match o.doRequest normalizedURL with
      | .error _ => true
      | .ok _ => false

end urlchecker

/-- The spec's description of the deduplication step, stated independently of
the source: the unique subsequence of the input preserving first-occurrence
order, keyed by exact string equality — keep the head, drop its later
duplicates, recurse. -/
def specFirstOccurrences : List String → List String
  | [] => []
  | x :: xs => x :: specFirstOccurrences (xs.filter fun y => decide (y ≠ x))
termination_by l => l.length
decreasing_by
  simp only [List.length_cons]
  exact Nat.lt_succ_of_le (List.length_filter_le _ _)

/-- The key list `[1, …, n]` (as integers): the keys of every store reachable
by inserts from a fresh store, and of every store reloaded from a snapshot of
such a store. -/
def natRangeKeys (n : Nat) : List Int := (List.range' 1 n).map (fun m : Nat => (m : Int))

/-- A concrete probe oracle whose URL parsing always fails, used to evaluate
the probe's failure path at a concrete input. -/
def failOracle : urlchecker.HttpOracle where
  parse := fun _ => .error "bad"
  newRequest := fun _ => .ok ()
  doRequest := fun _ => .ok 200
  elapsedFail := 0
  elapsedOk := 0

/-- A concrete probe used to evaluate the dispatcher at concrete inputs: it
reports every URL available. -/
def allAvailableProbe : String → Link := fun u => ⟨u, .available, 0, 0⟩

section AssocLemmas

variable {K V : Type} [DecidableEq K]

theorem assocFind_assign_self (m : List (K × V)) (k : K) (v : V) :
    assocFind (assocAssign m k v) k = some v := by
  induction m with
  | nil => simp [assocAssign, assocFind]
  | cons kv rest ih =>
    by_cases h : kv.1 = k
    · simp [assocAssign, assocFind, h]
    · cases kv with
      | mk k' v' =>
        simp only [assocAssign, assocFind] at *
        rw [if_neg h, assocFind, if_neg h]
        exact ih

theorem assocFind_assign_of_ne (m : List (K × V)) (k k' : K) (v : V) (h : k' ≠ k) :
    assocFind (assocAssign m k v) k' = assocFind m k' := by
  induction m with
  | nil =>
    simp only [assocAssign, assocFind]
    rw [if_neg (fun he => h he.symm)]
  | cons kv rest ih =>
    cases kv with
    | mk k0 v0 =>
      by_cases h0 : k0 = k
      · subst h0
        simp only [assocAssign, if_pos rfl, assocFind]
        rw [if_neg (fun he => h he.symm), if_neg (fun he => h he.symm)]
      · simp only [assocAssign, if_neg h0, assocFind]
        by_cases h1 : k0 = k'
        · rw [if_pos h1, if_pos h1]
        · rw [if_neg h1, if_neg h1]
          exact ih

theorem assocAssign_of_not_mem (m : List (K × V)) (k : K) (v : V)
    (h : k ∉ m.map Prod.fst) : assocAssign m k v = m ++ [(k, v)] := by
  induction m with
  | nil => simp [assocAssign]
  | cons kv rest ih =>
    cases kv with
    | mk k0 v0 =>
      simp only [List.map_cons, List.mem_cons, not_or] at h
      simp only [assocAssign, List.cons_append]
      rw [if_neg (fun he => h.1 he.symm)]
      rw [ih h.2]

theorem assocFind_eq_none_of_not_mem (m : List (K × V)) (k : K)
    (h : k ∉ m.map Prod.fst) : assocFind m k = none := by
  induction m with
  | nil => simp [assocFind]
  | cons kv rest ih =>
    cases kv with
    | mk k0 v0 =>
      simp only [List.map_cons, List.mem_cons, not_or] at h
      simp only [assocFind]
      rw [if_neg (fun he => h.1 he.symm)]
      exact ih h.2

theorem assocFind_of_mem_of_nodup (m : List (K × V)) (k : K) (v : V)
    (hm : (m.map Prod.fst).Nodup) (h : (k, v) ∈ m) : assocFind m k = some v := by
  induction m with
  | nil => simp at h
  | cons kv rest ih =>
    cases kv with
    | mk k0 v0 =>
      simp only [List.map_cons, List.nodup_cons] at hm
      rcases List.mem_cons.mp h with he | hmem
      · rw [show k0 = k from (Prod.mk.injEq .. ▸ he.symm).1,
          show v0 = v from (Prod.mk.injEq .. ▸ he.symm).2]
        simp [assocFind]
      · have hk : k0 ≠ k := by
          intro he0
          subst he0
          exact hm.1 (List.mem_map.mpr ⟨(k0, v), hmem, rfl⟩)
        simp only [assocFind, if_neg hk]
        exact ih hm.2 hmem

end AssocLemmas

namespace link

theorem dedupLoop_eq_spec (l : List String) :
    ∀ seen, dedupLoop l seen
      = specFirstOccurrences (l.filter fun y => decide (y ∉ seen)) := by
  induction l with
  | nil => intro seen; simp [dedupLoop, specFirstOccurrences]
  | cons x xs ih =>
    intro seen
    by_cases hx : x ∈ seen
    · simp only [dedupLoop, if_pos hx, List.filter_cons]
      have hxd : decide (x ∉ seen) = false := by simpa using hx
      rw [hxd]
      simp only [Bool.false_eq_true, if_neg (by simp : ¬False)]
      exact ih seen
    · simp only [dedupLoop, if_neg hx, List.filter_cons]
      have hxd : decide (x ∉ seen) = true := by simpa using hx
      rw [hxd]
      simp only [if_pos trivial]
      rw [specFirstOccurrences, List.filter_filter]
      congr 1
      rw [ih (x :: seen)]
      congr 1
      refine List.filter_congr fun a _ => ?_
      simp [List.mem_cons, not_or, Bool.and_comm]

theorem mem_dedupLoop (l : List String) :
    ∀ seen x, x ∈ dedupLoop l seen ↔ x ∈ l ∧ x ∉ seen := by
  induction l with
  | nil => intro seen x; simp [dedupLoop]
  | cons y ys ih =>
    intro seen x
    by_cases hy : y ∈ seen
    · rw [dedupLoop, if_pos hy, ih]
      constructor
      · rintro ⟨h1, h2⟩; exact ⟨List.mem_cons_of_mem _ h1, h2⟩
      · rintro ⟨h1, h2⟩
        rcases List.mem_cons.mp h1 with rfl | h1
        · exact absurd hy h2
        · exact ⟨h1, h2⟩
    · rw [dedupLoop, if_neg hy]
      constructor
      · intro h
        rcases List.mem_cons.mp h with rfl | h
        · exact ⟨List.mem_cons_self _ _, hy⟩
        · rw [ih] at h
          refine ⟨List.mem_cons_of_mem _ h.1, ?_⟩
          intro hx
          exact h.2 (List.mem_cons_of_mem _ hx)
      · rintro ⟨h1, h2⟩
        rcases List.mem_cons.mp h1 with rfl | h1
        · exact List.mem_cons_self _ _
        · by_cases hxy : x = y
          · subst hxy; exact List.mem_cons_self _ _
          · refine List.mem_cons_of_mem _ ?_
            rw [ih]
            exact ⟨h1, by simp [List.mem_cons, hxy, h2]⟩

theorem dedupLoop_sublist (l : List String) :
    ∀ seen, (dedupLoop l seen).Sublist l := by
  induction l with
  | nil => intro seen; simp [dedupLoop]
  | cons y ys ih =>
    intro seen
    rw [dedupLoop]
    by_cases hy : y ∈ seen
    · rw [if_pos hy]; exact (ih seen).cons _
    · rw [if_neg hy]; exact (ih (y :: seen)).cons₂ _

theorem dedupLoop_nodup (l : List String) :
    ∀ seen, (dedupLoop l seen).Nodup := by
  induction l with
  | nil => intro seen; simp [dedupLoop]
  | cons y ys ih =>
    intro seen
    rw [dedupLoop]
    by_cases hy : y ∈ seen
    · rw [if_pos hy]; exact ih seen
    · rw [if_neg hy]
      refine List.nodup_cons.mpr ⟨?_, ih (y :: seen)⟩
      intro hmem
      exact ((mem_dedupLoop ys (y :: seen) y).mp hmem).2 (List.mem_cons_self _ _)

theorem mem_deduplicateLinks (l : List String) (x : String) :
    x ∈ deduplicateLinks l ↔ x ∈ l := by
  rw [deduplicateLinks, mem_dedupLoop]
  simp

theorem deduplicateLinks_nodup (l : List String) : (deduplicateLinks l).Nodup :=
  dedupLoop_nodup l []

end link

/-- C5: for every list of URL strings, `deduplicateLinks` produces exactly
the unique subsequence of the input preserving first-occurrence order, keyed
by exact string equality: it coincides with the spec-side description
`specFirstOccurrences`, is a subsequence of the input, has no duplicate
string, and retains exactly the strings of the input. -/
theorem deduplicateLinks_unique_first_occurrence_subsequence (links : List String) :
    link.deduplicateLinks links = specFirstOccurrences links ∧
    (link.deduplicateLinks links).Sublist links ∧
    (link.deduplicateLinks links).Nodup ∧
    ∀ u, u ∈ link.deduplicateLinks links ↔ u ∈ links := by
  refine ⟨?_, link.dedupLoop_sublist links [], link.deduplicateLinks_nodup links,
    fun u => link.mem_deduplicateLinks links u⟩
  rw [link.deduplicateLinks, link.dedupLoop_eq_spec links []]
  congr 1
  simp

namespace inmemory

theorem getByNumsLoop_ok (s : Storage) (nums : List Int)
    (h : ∀ n ∈ nums, (s.find n).isSome) :
    ∀ acc, getByNumsLoop s nums acc
      = .ok (acc ++ nums.map fun n => ⟨(s.find n).getD [], n⟩) := by
  induction nums with
  | nil => intro acc; simp [getByNumsLoop]
  | cons n rest ih =>
    intro acc
    obtain ⟨v, hv⟩ := Option.isSome_iff_exists.mp (h n (List.mem_cons_self _ _))
    rw [getByNumsLoop, hv]
    show getByNumsLoop s rest (acc ++ [⟨v, n⟩]) = _
    rw [ih (fun m hm => h m (List.mem_cons_of_mem _ hm))]
    simp [hv]

theorem getByNumsLoop_error (s : Storage) (nums : List Int)
    (h : ∃ n ∈ nums, s.find n = none) :
    ∀ acc, getByNumsLoop s nums acc = .error "invalid link number" := by
  induction nums with
  | nil => simp at h
  | cons n rest ih =>
    intro acc
    rw [getByNumsLoop]
    cases hn : s.find n with
    | none => rfl
    | some v =>
      obtain ⟨m, hm, hmf⟩ := h
      rcases List.mem_cons.mp hm with rfl | hm
      · rw [hn] at hmf; cases hmf
      · exact ih ⟨m, hm, hmf⟩ (acc ++ [⟨v, n⟩])

end inmemory

/-- C9: `InsertMany` has no failing branch — for every store state and every
slice of links (the empty slice included), it returns a `nil` error together
with group number `len(s.links) + 1`, and stores the given slice as that
group. -/
theorem insertMany_always_succeeds (s : inmemory.Storage) (links : List Link) :
    (s.InsertMany links).err = none ∧
    (s.InsertMany links).num = (s.count : Int) + 1 ∧
    (s.InsertMany links).store.find (s.InsertMany links).num = some links := by
  refine ⟨rfl, rfl, ?_⟩
  exact assocFind_assign_self s.links ((s.links.length : Int) + 1) links

theorem inmemory.loadFromFile_saveToFile (s : inmemory.Storage) :
    inmemory.LoadFromFile s.SaveToFile = s := by
  cases s with
  | mk links =>
    have hcomp : ((fun g : Links => (g.linksNum, g.links)) ∘
        fun kv : Int × List Link => (⟨kv.2, kv.1⟩ : Links)) = id := by
      funext kv; rfl
    simp only [inmemory.LoadFromFile, inmemory.Storage.SaveToFile,
      inmemory.Storage.GetAll, List.map_map, hcomp, List.map_id]

/-- C7: saving a store to a snapshot and loading that snapshot into a fresh
store reproduces an equivalent set of groups — every group number is mapped
to the same link list as in the original store (the round-trip in fact
reproduces the store's map exactly; only `GetAll`'s enumeration order is
transient). -/
theorem save_load_round_trip (s : inmemory.Storage) :
    inmemory.LoadFromFile s.SaveToFile = s ∧
    ∀ num, (inmemory.LoadFromFile s.SaveToFile).find num = s.find num :=
  ⟨inmemory.loadFromFile_saveToFile s,
   fun num => by rw [inmemory.loadFromFile_saveToFile s]⟩

/-- C4: `GetByNums` is an all-or-nothing read — when every requested number
is present it returns the corresponding groups in the order requested; when
any requested number is absent it returns the error `"invalid link number"`
and no partial result. -/
theorem getByNums_all_or_nothing (s : inmemory.Storage) (nums : List Int) :
    ((∀ n ∈ nums, (s.find n).isSome) →
      s.GetByNums nums = .ok (nums.map fun n => ⟨(s.find n).getD [], n⟩)) ∧
    ((∃ n ∈ nums, s.find n = none) →
      s.GetByNums nums = .error "invalid link number") := by
  constructor
  · intro h
    rw [inmemory.Storage.GetByNums, inmemory.getByNumsLoop_ok s nums h []]
    simp
  · intro h
    exact inmemory.getByNumsLoop_error s nums h []

/-- Witness for C4 at concrete inputs: a store holding groups 1 and 2; the
request `[2, 1]` succeeds in the requested order, while the request
`[1, 99, 2]` fails with the not-found error. -/
theorem getByNums_all_or_nothing_witness :
    (inmemory.Storage.mk [(1, []), (2, [⟨"a.com", .available, 7, 3⟩])]).GetByNums [2, 1]
      = .ok [⟨[⟨"a.com", .available, 7, 3⟩], 2⟩, ⟨[], 1⟩] ∧
    (inmemory.Storage.mk [(1, []), (2, [⟨"a.com", .available, 7, 3⟩])]).GetByNums [1, 99, 2]
      = .error "invalid link number" := by
  constructor
  · rw [(getByNums_all_or_nothing ⟨[(1, []), (2, [⟨"a.com", .available, 7, 3⟩])]⟩ [2, 1]).1
      (by decide)]
    rfl
  · exact (getByNums_all_or_nothing ⟨[(1, []), (2, [⟨"a.com", .available, 7, 3⟩])]⟩
      [1, 99, 2]).2 (by decide)

/-- C8: the probe is total — for every oracle outcome (context effects
included), clock reading and raw URL string, `CheckURLWithContext` returns a
`Link` record (never an error value) whose `url` field is the raw input
string and whose `checkedAt` field is the start-of-call timestamp; whenever
normalization, request construction or the network request fails, the
record's status is `NotAvailable`. -/
theorem checkURL_total_never_errors (o : urlchecker.HttpOracle) (start : Int)
    (rawURL : String) :
    (urlchecker.CheckURLWithContext o start rawURL).url = rawURL ∧
    (urlchecker.CheckURLWithContext o start rawURL).checkedAt = start ∧
    (urlchecker.probeStageFails o rawURL = true →
      (urlchecker.CheckURLWithContext o start rawURL).status = .notAvailable) := by
  unfold urlchecker.CheckURLWithContext urlchecker.probeStageFails
  cases hn : urlchecker.normalizeURL o.parse rawURL with
  | error e => simp
  | ok n =>
    cases hr : o.newRequest n with
    | error e => simp [hr]
    | ok u =>
      cases hd : o.doRequest n with
      | error e => simp [hr, hd]
      | ok code => simp [hr, hd]

/-- Witness for C8 at a concrete input: with an oracle whose URL parsing
fails, the probe of `"bad url"` returns a record with the raw URL, the start
timestamp and status `NotAvailable`. -/
theorem checkURL_total_never_errors_witness :
    (urlchecker.CheckURLWithContext failOracle 5 "bad url").url = "bad url" ∧
    (urlchecker.CheckURLWithContext failOracle 5 "bad url").checkedAt = 5 ∧
    (urlchecker.CheckURLWithContext failOracle 5 "bad url").status = .notAvailable := by
  have h := checkURL_total_never_errors failOracle 5 "bad url"
  exact ⟨h.1, h.2.1, h.2.2 rfl⟩

/-- C3: for every input URL list whose deduplicated form is empty, every
store, every service configuration and every context/scheduling trace,
`CheckMany` returns the empty summary with no error, leaves the store
untouched (no group inserted) and launches zero workers. -/
theorem checkMany_empty_input (svc : link.Service) (s : inmemory.Storage)
    (links : List String) (trace : List link.Ev)
    (h : link.deduplicateLinks links = []) :
    link.CheckMany svc s links trace
      = some { result := .ok ⟨[], 0⟩, store := s, workers := 0 } := by
  unfold link.CheckMany
  rw [h]
  rfl

/-- Witness for C3 at a concrete input: the empty URL list with an
already-cancelled context trace. -/
theorem checkMany_empty_input_witness :
    link.CheckMany (link.New 3) inmemory.New [] [link.Ev.cancel "context canceled"]
      = some { result := .ok ⟨[], 0⟩, store := inmemory.New, workers := 0 } :=
  checkMany_empty_input (link.New 3) inmemory.New [] [link.Ev.cancel "context canceled"] rfl

namespace inmemory

theorem not_mem_natRangeKeys_succ (n : Nat) : ((n : Int) + 1) ∉ natRangeKeys n := by
  intro hmem
  rw [natRangeKeys] at hmem
  obtain ⟨m, hm, hcast⟩ := List.mem_map.mp hmem
  have hlt : m < 1 + n := (List.mem_range'_1.mp hm).2
  omega

theorem natRangeKeys_succ (n : Nat) :
    natRangeKeys (n + 1) = natRangeKeys n ++ [(n : Int) + 1] := by
  rw [natRangeKeys, natRangeKeys]
  have h := @List.range'_concat 1 1 n
  simp only [one_mul] at h
  rw [h, List.map_append]
  congr 1
  simp only [List.map_cons, List.map_nil, List.cons.injEq, and_true]
  push_cast
  ring

theorem insertMany_keys (s : Storage) (b : List Link)
    (h : s.keys = natRangeKeys s.count) :
    (s.InsertMany b).store.keys = natRangeKeys (s.count + 1) ∧
    (s.InsertMany b).store.count = s.count + 1 := by
  have hfresh : ((s.count : Int) + 1) ∉ s.links.map Prod.fst := by
    rw [show s.links.map Prod.fst = s.keys from rfl, h]
    exact not_mem_natRangeKeys_succ s.count
  have hassign : assocAssign s.links ((s.links.length : Int) + 1) b
      = s.links ++ [(((s.links.length : Int) + 1), b)] :=
    assocAssign_of_not_mem s.links _ b hfresh
  constructor
  · rw [Storage.InsertMany]
    show (Storage.mk (assocAssign s.links ((s.links.length : Int) + 1) b)).keys = _
    rw [Storage.keys, hassign, List.map_append, natRangeKeys_succ]
    rw [show (s.links.map Prod.fst) = s.keys from rfl, h]
    rfl
  · rw [Storage.InsertMany]
    show (Storage.mk (assocAssign s.links ((s.links.length : Int) + 1) b)).count = _
    rw [Storage.count, hassign, List.length_append]
    rfl

theorem runInserts_invariant (batches : List (List Link)) :
    ∀ s : Storage, s.keys = natRangeKeys s.count →
      (runInserts s batches).1
        = (List.range' (s.count + 1) batches.length).map (fun m : Nat => (m : Int)) ∧
      (runInserts s batches).2.count = s.count + batches.length ∧
      (runInserts s batches).2.keys = natRangeKeys (s.count + batches.length) := by
  induction batches with
  | nil => intro s h; simp [runInserts, h]
  | cons b rest ih =>
    intro s h
    obtain ⟨hkeys, hcount⟩ := insertMany_keys s b h
    have hinv : (s.InsertMany b).store.keys
        = natRangeKeys (s.InsertMany b).store.count := by rw [hkeys, hcount]
    obtain ⟨ih1, ih2, ih3⟩ := ih (s.InsertMany b).store hinv
    rw [hcount] at ih1 ih2 ih3
    refine ⟨?_, ?_, ?_⟩
    · show (s.InsertMany b).num :: (runInserts (s.InsertMany b).store rest).1 = _
      rw [ih1]
      rw [show (s.InsertMany b).num = (s.count : Int) + 1 from rfl]
      simp only [List.length_cons]
      rw [List.range'_succ]
      simp only [List.map_cons]
      congr 2
    · show (runInserts (s.InsertMany b).store rest).2.count = _
      rw [ih2]
      simp only [List.length_cons]
      omega
    · show (runInserts (s.InsertMany b).store rest).2.keys = _
      rw [ih3]
      congr 1
      simp only [List.length_cons]
      omega

end inmemory

/-- C1: group numbers are assigned by the monotone counter
`len(s.links) + 1`.  (i) Starting from a fresh store, a sequence of `N`
successful `InsertMany` calls returns exactly the numbers `1, …, N` in call
order — so the i-th call returns `i`, every number equals the count of
groups inserted so far plus one, and the numbers are strictly positive and
pairwise distinct.  (ii) On any store whose key set is `{1, …, n}` (every
store reachable by inserts, and every store reloaded from such a store's
snapshot), the next call returns `n + 1`, which continues the preexisting
maximum: every existing key is at most `n`, and `n` itself is a key when the
store is non-empty.  (iii) A save/load round trip preserves that key
invariant. -/
theorem insertMany_sequential_group_numbers :
    (∀ batches : List (List Link),
      (inmemory.runInserts inmemory.New batches).1
          = (List.range' 1 batches.length).map (fun m : Nat => (m : Int)) ∧
      (inmemory.runInserts inmemory.New batches).1.Nodup ∧
      ∀ num ∈ (inmemory.runInserts inmemory.New batches).1, 0 < num) ∧
    (∀ (s : inmemory.Storage) (b : List Link),
      s.keys = natRangeKeys s.count →
      (s.InsertMany b).num = (s.count : Int) + 1 ∧
      (∀ k ∈ s.keys, k ≤ (s.count : Int)) ∧
      (0 < s.count → (s.count : Int) ∈ s.keys)) ∧
    (∀ s : inmemory.Storage, s.keys = natRangeKeys s.count →
      (inmemory.LoadFromFile s.SaveToFile).keys
        = natRangeKeys (inmemory.LoadFromFile s.SaveToFile).count) := by
  refine ⟨?_, ?_, ?_⟩
  · intro batches
    have hfresh : inmemory.New.keys = natRangeKeys inmemory.New.count := rfl
    have h := inmemory.runInserts_invariant batches inmemory.New hfresh
    have h1 : (inmemory.runInserts inmemory.New batches).1
        = (List.range' 1 batches.length).map (fun m : Nat => (m : Int)) := by
      rw [h.1]
      rfl
    refine ⟨h1, ?_, ?_⟩
    · rw [h1]
      exact (List.nodup_range' 1 batches.length).map
        (fun a b hab => by omega)
    · intro num hmem
      rw [h1] at hmem
      obtain ⟨m, hm, hcast⟩ := List.mem_map.mp hmem
      have h1le : 1 ≤ m := (List.mem_range'_1.mp hm).1
      omega
  · intro s b h
    refine ⟨rfl, ?_, ?_⟩
    · intro k hk
      rw [h, natRangeKeys] at hk
      obtain ⟨m, hm, hcast⟩ := List.mem_map.mp hk
      have := (List.mem_range'_1.mp hm).2
      omega
    · intro hpos
      rw [h, natRangeKeys]
      refine List.mem_map.mpr ⟨s.count, ?_, rfl⟩
      exact List.mem_range'_1.mpr ⟨hpos, by omega⟩
  · intro s h
    rw [inmemory.loadFromFile_saveToFile s]
    exact h

/-- Witness for C1 at concrete inputs: two inserts on a fresh store return
numbers `[1, 2]`; on a store already holding group `1`, the next insert
returns `2` and `1` is the preexisting maximum key. -/
theorem insertMany_sequential_group_numbers_witness :
    (inmemory.runInserts inmemory.New [[], [⟨"a", .available, 0, 0⟩]]).1
        = [1, 2] ∧
    ((inmemory.Storage.mk [(1, [])]).InsertMany []).num = 2 ∧
    (∀ k ∈ (inmemory.Storage.mk [(1, [])]).keys, k ≤ (1 : Int)) ∧
    (1 : Int) ∈ (inmemory.Storage.mk [(1, [])]).keys := by
  have h := insertMany_sequential_group_numbers
  have h2 := h.2.1 ⟨[(1, [])]⟩ [] (by rfl)
  refine ⟨?_, ?_, ?_, ?_⟩
  · rw [(h.1 [[], [⟨"a", .available, 0, 0⟩]]).1]; rfl
  · rw [h2.1]; rfl
  · exact h2.2.1
  · exact h2.2.2 (by decide)

namespace link

theorem collectResults_cancel (pre : List Link) (e : String) (rest : List Ev) :
    ∀ acc, collectResults (pre.map Ev.recv ++ Ev.cancel e :: rest) acc
      = some (.error e) := by
  induction pre with
  | nil => intro acc; rfl
  | cons l ls ih => intro acc; exact ih (acc ++ [l])

theorem collectResults_closed (ls : List Link) (rest : List Ev) :
    ∀ acc, collectResults (ls.map Ev.recv ++ Ev.closed :: rest) acc
      = some (.ok (acc ++ ls)) := by
  induction ls with
  | nil => intro acc; simp [collectResults]
  | cons l ls ih =>
    intro acc
    show collectResults (ls.map Ev.recv ++ Ev.closed :: rest) (acc ++ [l]) = _
    rw [ih (acc ++ [l])]
    simp

theorem checkMany_collect_error (svc : Service) (s : inmemory.Storage)
    (links : List String) (trace : List Ev) (e : String)
    (hlen : (deduplicateLinks links).length ≠ 0)
    (ht : collectResults trace [] = some (.error e)) :
    CheckMany svc s links trace
      = some { result := .error e, store := s
               workers := poolSize svc (deduplicateLinks links).length } := by
  simp only [CheckMany]
  rw [if_neg hlen, ht]

theorem checkMany_collect_ok (svc : Service) (s : inmemory.Storage)
    (links : List String) (trace : List Ev) (checked : List Link)
    (hlen : (deduplicateLinks links).length ≠ 0)
    (ht : collectResults trace [] = some (.ok checked)) :
    CheckMany svc s links trace
      = some { result := .ok (buildResponse checked (s.InsertMany checked).num)
               store := (s.InsertMany checked).store
               workers := poolSize svc (deduplicateLinks links).length } := by
  simp only [CheckMany]
  rw [if_neg hlen, ht]
  rfl

end link

/-- C2: when the context is cancelled before result collection completes —
the collector's `select` trace delivers some results and then the context's
`Done` channel fires with error `e` — `CheckMany` on a non-empty unique URL
list returns exactly the context's cancellation error, performs no
insertion, and leaves the store (hence its group count) unchanged. -/
theorem checkMany_cancelled_discards_results (svc : link.Service)
    (s : inmemory.Storage) (links : List String) (pre : List Link) (e : String)
    (rest : List link.Ev) (h : link.deduplicateLinks links ≠ []) :
    ∃ o : link.Outcome,
      link.CheckMany svc s links
          (pre.map link.Ev.recv ++ link.Ev.cancel e :: rest) = some o ∧
      o.result = .error e ∧ o.store = s ∧ o.store.count = s.count := by
  have hlen : (link.deduplicateLinks links).length ≠ 0 := by
    simpa [List.length_eq_zero] using h
  refine ⟨_, link.checkMany_collect_error svc s links _ e hlen
    (link.collectResults_cancel pre e rest []), rfl, rfl, rfl⟩

/-- Witness for C2 at concrete inputs: two URLs, one result already
received, then cancellation — the call returns the cancellation error and
the store stays empty. -/
theorem checkMany_cancelled_discards_results_witness :
    ∃ o : link.Outcome,
      link.CheckMany (link.New 2) inmemory.New ["x.com", "y.com"]
          ([⟨"x.com", .available, 1, 2⟩].map link.Ev.recv
            ++ link.Ev.cancel "context canceled" :: []) = some o ∧
      o.result = .error "context canceled" ∧ o.store = inmemory.New ∧
      o.store.count = inmemory.New.count :=
  checkMany_cancelled_discards_results (link.New 2) inmemory.New
    ["x.com", "y.com"] [⟨"x.com", .available, 1, 2⟩] "context canceled" []
    (by decide)

theorem link.New_workerCount_pos (wc : Int) : 0 < (link.New wc).workerCount := by
  rw [link.New]
  split_ifs with h
  · show (0 : Int) < 4
    norm_num
  · show (0 : Int) < wc
    omega

/-- C10: `New` configures the worker-pool size to the default `4` whenever
the argument is non-positive and to the argument itself whenever it is
positive; and every resolved `CheckMany` call launches exactly
`min(configured size, number of unique URLs)` workers. -/
theorem new_worker_count_defaulting_and_pool_min (wc : Int) :
    ((wc ≤ 0 → (link.New wc).workerCount = 4) ∧
     (0 < wc → (link.New wc).workerCount = wc)) ∧
    ∀ (s : inmemory.Storage) (links : List String) (trace : List link.Ev)
      (o : link.Outcome),
      link.CheckMany (link.New wc) s links trace = some o →
      o.workers
        = min (link.New wc).workerCount
            ((link.deduplicateLinks links).length : Int) := by
  refine ⟨⟨?_, ?_⟩, ?_⟩
  · intro h
    rw [link.New, if_pos h]
    rfl
  · intro h
    rw [link.New, if_neg (by omega)]
  · intro s links trace o h
    have hpos : 0 < (link.New wc).workerCount := link.New_workerCount_pos wc
    by_cases hlen : (link.deduplicateLinks links).length = 0
    · simp only [link.CheckMany] at h
      rw [if_pos hlen] at h
      obtain rfl := Option.some.inj h
      simp only [hlen, Nat.cast_zero]
      show (0 : Int) = _
      rw [Int.min_def]
      split_ifs <;> omega
    · simp only [link.CheckMany] at h
      rw [if_neg hlen] at h
      cases ht : link.collectResults trace [] with
      | none =>
        rw [ht] at h
        cases h
      | some r =>
        rw [ht] at h
        cases r with
        | error e =>
          have h' : some (link.Outcome.mk (Except.error e) s
              (link.poolSize (link.New wc)
                (link.deduplicateLinks links).length)) = some o := h
          obtain rfl := Option.some.inj h'
          show link.poolSize (link.New wc) (link.deduplicateLinks links).length = _
          rw [link.poolSize, Int.min_def]
          split_ifs <;> omega
        | ok checked =>
          have h' : some (link.Outcome.mk
              (Except.ok (link.buildResponse checked ((s.InsertMany checked).num)))
              ((s.InsertMany checked).store)
              (link.poolSize (link.New wc)
                (link.deduplicateLinks links).length)) = some o := h
          obtain rfl := Option.some.inj h'
          show link.poolSize (link.New wc) (link.deduplicateLinks links).length = _
          rw [link.poolSize, Int.min_def]
          split_ifs <;> omega

/-- Witness for C10 at concrete inputs: `New 0` and `New (-2)` fall back to
4 workers, `New 7` keeps 7; a resolved call with one unique URL and 4
configured workers launches `min 4 1 = 1` worker. -/
theorem new_worker_count_defaulting_and_pool_min_witness :
    (link.New 0).workerCount = 4 ∧ (link.New (-2)).workerCount = 4 ∧
    (link.New 7).workerCount = 7 ∧
    ∃ o, link.CheckMany (link.New 0) inmemory.New ["a"] [link.Ev.closed]
        = some o ∧ o.workers = 1 := by
  refine ⟨(new_worker_count_defaulting_and_pool_min 0).1.1 (by norm_num),
    (new_worker_count_defaulting_and_pool_min (-2)).1.1 (by norm_num),
    (new_worker_count_defaulting_and_pool_min 7).1.2 (by norm_num),
    link.Outcome.mk (Except.ok ⟨[], 1⟩) ⟨[(1, [])]⟩ 1, rfl, rfl⟩

namespace link

theorem foldlAssign_eq (checked : List Link) :
    ∀ acc : List (String × LinkStatus),
      (∀ l ∈ checked, l.url ∉ acc.map Prod.fst) →
      (checked.map Link.url).Nodup →
      checked.foldl (fun m l => assocAssign m l.url l.status) acc
        = acc ++ checked.map fun l => (l.url, l.status) := by
  induction checked with
  | nil => intro acc _ _; simp
  | cons l ls ih =>
    intro acc hdisj hnodup
    simp only [List.foldl_cons]
    rw [assocAssign_of_not_mem acc l.url l.status (hdisj l (List.mem_cons_self _ _))]
    rw [List.map_cons] at hnodup
    have hnl := List.nodup_cons.mp hnodup
    rw [ih (acc ++ [(l.url, l.status)]) ?_ hnl.2]
    · simp
    · intro l' hl'
      rw [List.map_append]
      simp only [List.mem_append, List.map_cons, List.map_nil, not_or]
      refine ⟨hdisj l' (List.mem_cons_of_mem _ hl'), ?_⟩
      simp only [List.mem_singleton]
      intro heq
      exact hnl.1 (heq ▸ List.mem_map.mpr ⟨l', hl', rfl⟩)

theorem buildResponse_links_of_nodup (checked : List Link) (num : Int)
    (h : (checked.map Link.url).Nodup) :
    (buildResponse checked num).links = checked.map fun l => (l.url, l.status) := by
  rw [buildResponse]
  exact foldlAssign_eq checked [] (by simp) h

end link

/-- C6: on a successful `CheckMany` over a non-empty URL list — the
collector's trace delivers exactly the probes of the unique URLs, in any
scheduler order, then observes the results channel closed — and assuming
the probe tags each record with its input URL, the summary maps every
distinct input URL to the status the probe reported for it and nothing
else, the number of probed results equals the number of distinct URLs, the
summary's group number is exactly the number returned by the store
insertion, and the store gains exactly one new group holding all checked
links while every other group is untouched. -/
theorem checkMany_success_summary (svc : link.Service) (s : inmemory.Storage)
    (links : List String) (probe : String → Link) (checked : List Link)
    (rest : List link.Ev)
    (hne : link.deduplicateLinks links ≠ [])
    (hperm : checked.Perm ((link.deduplicateLinks links).map probe))
    (hurl : ∀ u, (probe u).url = u)
    (hkeys : s.keys = natRangeKeys s.count) :
    ∃ (o : link.Outcome) (resp : LinksResponse),
      link.CheckMany svc s links
          (checked.map link.Ev.recv ++ link.Ev.closed :: rest) = some o ∧
      o.result = .ok resp ∧
      checked.length = (link.deduplicateLinks links).length ∧
      resp.links.length = (link.deduplicateLinks links).length ∧
      (∀ u, u ∈ links → assocFind resp.links u = some (probe u).status) ∧
      (∀ u, u ∉ links → assocFind resp.links u = none) ∧
      resp.linksNum = (s.InsertMany checked).num ∧
      (s.InsertMany checked).num = (s.count : Int) + 1 ∧
      o.store = (s.InsertMany checked).store ∧
      o.store.count = s.count + 1 ∧
      o.store.find ((s.count : Int) + 1) = some checked ∧
      (∀ k, k ≠ (s.count : Int) + 1 → o.store.find k = s.find k) := by
  have hlen0 : (link.deduplicateLinks links).length ≠ 0 := by
    simpa [List.length_eq_zero] using hne
  have ht : link.collectResults
      (checked.map link.Ev.recv ++ link.Ev.closed :: rest) []
        = some (.ok checked) := by
    simpa using link.collectResults_closed checked rest []
  have hrun := link.checkMany_collect_ok svc s links _ checked hlen0 ht
  -- the urls of the checked links are exactly the unique urls, up to order
  have hmapurl : ((link.deduplicateLinks links).map probe).map Link.url
      = link.deduplicateLinks links := by
    rw [List.map_map]
    have : ∀ u ∈ link.deduplicateLinks links, (Link.url ∘ probe) u = id u :=
      fun u _ => hurl u
    rw [List.map_congr_left this, List.map_id]
  have hpermurl : (checked.map Link.url).Perm (link.deduplicateLinks links) := by
    have := hperm.map Link.url
    rwa [hmapurl] at this
  have hnodup : (checked.map Link.url).Nodup :=
    hpermurl.nodup_iff.mpr (link.deduplicateLinks_nodup links)
  have hresp := link.buildResponse_links_of_nodup checked
    (s.InsertMany checked).num hnodup
  have hrespkeys : ((checked.map fun l => (l.url, l.status)).map Prod.fst)
      = checked.map Link.url := by
    rw [List.map_map]
    rfl
  refine ⟨_, link.buildResponse checked (s.InsertMany checked).num, hrun, rfl,
    ?_, ?_, ?_, ?_, rfl, rfl, rfl, ?_, ?_, ?_⟩
  · rw [hperm.length_eq, List.length_map]
  · rw [hresp, List.length_map, hperm.length_eq, List.length_map]
  · intro u hu
    have hudedup : u ∈ link.deduplicateLinks links :=
      (link.mem_deduplicateLinks links u).mpr hu
    have hpmem : probe u ∈ checked :=
      hperm.mem_iff.mpr (List.mem_map.mpr ⟨u, hudedup, rfl⟩)
    rw [hresp]
    refine assocFind_of_mem_of_nodup _ u (probe u).status ?_ ?_
    · rw [hrespkeys]
      exact hnodup
    · exact List.mem_map.mpr ⟨probe u, hpmem, by rw [hurl]⟩
  · intro u hu
    rw [hresp]
    refine assocFind_eq_none_of_not_mem _ u ?_
    rw [hrespkeys]
    intro hmem
    obtain ⟨l, hl, hlu⟩ := List.mem_map.mp hmem
    obtain ⟨u', hu', hpu⟩ := List.mem_map.mp (hperm.mem_iff.mp hl)
    apply hu
    apply (link.mem_deduplicateLinks links u).mp
    have : u' = u := by rw [← hlu, ← hpu, hurl]
    exact this ▸ hu'
  · exact (inmemory.insertMany_keys s checked hkeys).2
  · exact assocFind_assign_self s.links ((s.links.length : Int) + 1) checked
  · intro k hk
    exact assocFind_assign_of_ne s.links ((s.links.length : Int) + 1) k checked hk

/-- Witness for C6 at the spec's concrete scenario:
`CheckMany(ctx, [x.com, x.com, y.com])` with both probes available yields a
summary mapping both URLs to `available` with group number 1, and exactly
one new group holding both checked links. -/
theorem checkMany_success_summary_witness :
    ∃ (o : link.Outcome) (resp : LinksResponse),
      link.CheckMany (link.New 2) inmemory.New ["x.com", "x.com", "y.com"]
          ([⟨"x.com", .available, 0, 0⟩, ⟨"y.com", .available, 0, 0⟩].map
            link.Ev.recv ++ link.Ev.closed :: []) = some o ∧
      o.result = .ok resp ∧
      assocFind resp.links "x.com" = some .available ∧
      assocFind resp.links "y.com" = some .available ∧
      resp.links.length = 2 ∧
      resp.linksNum = 1 ∧
      o.store.count = 1 ∧
      o.store.find 1
        = some [⟨"x.com", .available, 0, 0⟩, ⟨"y.com", .available, 0, 0⟩] := by
  obtain ⟨o, resp, hrun, hres, hchk, hlen, hmem, hnmem, hnum, hnum1, hst,
    hcount, hfind, hother⟩ :=
    checkMany_success_summary (link.New 2) inmemory.New
      ["x.com", "x.com", "y.com"] allAvailableProbe
      [⟨"x.com", .available, 0, 0⟩, ⟨"y.com", .available, 0, 0⟩] []
      (by decide) (List.Perm.refl _) (fun u => rfl) rfl
  exact ⟨o, resp, hrun, hres, hmem "x.com" (by decide), hmem "y.com" (by decide),
    hlen, hnum.trans hnum1, hcount, hfind⟩
